import Mathlib

/-!
# Winch / cable kinematic model of `cable_robot`

Shallow embedding of `src/robot/components/winch.cpp` (classes `Cable` and `Winch`).

Conventions of the embedding:

* a C++ `int` / `int32_t` is an `Int` that has to stay inside `[INT_MIN, INT_MAX]`;
  an integer operation whose exact result leaves that range, and a conversion
  `static_cast<int>(double)` whose truncated operand leaves it (or whose operand comes
  from a division by zero), has no defined result: the embedded function returns `none`;
* the servo drive is an explicit component of the state: the status it currently reports
  and the list of commands it has received so far;
* the `double` arithmetic is embedded twice. In namespace `CableRobot` a `double` is an
  exact rational number (no rounding, no infinities, no NaN); this reading carries the
  statements that stipulate exact arithmetic or do not depend on rounding (status formula,
  homing, command dispatch, calibration frame, monotonicity). In namespace
  `CableRobot.Binary64` every `double` operation is rounded to the IEEE binary64 format
  (round to nearest, ties to even) and may overflow to an infinity; this reading carries
  the statements about rounding, truncation of quotients, totality and the consistency of
  a length command with the status read back.
-/

namespace CableRobot

/-! ## Machine integers -/

/-- Smallest value of a 32-bit `int`. -/
def INT_MIN : Int := -2147483648

/-- Largest value of a 32-bit `int`. -/
def INT_MAX : Int := 2147483647

/-- The integer is representable as a 32-bit `int`. -/
def inIntRange (n : Int) : Prop := INT_MIN ≤ n ∧ n ≤ INT_MAX

instance (n : Int) : Decidable (inIntRange n) := by
  unfold inIntRange; infer_instance

/-- Result of an `int` computation whose exact value is `n`: defined only in range. -/
def checkedInt (n : Int) : Option Int := if inIntRange n then some n else none

/-- Truncation of a rational toward zero (the value `static_cast<int>` aims at). -/
def truncate (x : ℚ) : Int := if 0 ≤ x then ⌊x⌋ else ⌈x⌉

/-- The conversion `static_cast<int>(x)` of a `double`: the fractional part is discarded;
undefined when the truncated value is not representable. -/
def static_cast_int (x : ℚ) : Option Int := checkedInt (truncate x)

/-- Division of two `double`s followed by `static_cast<int>`: a zero divisor gives an
infinity or a NaN, which no `int` represents. -/
def divToInt (x f : ℚ) : Option Int := if f = 0 then none else static_cast_int (x / f)

/-! ## Cable -/

/-- Class `Cable`: the data members `home_length_` and `length_`. -/
structure Cable where
  home_length_ : ℚ
  length_ : ℚ
  deriving DecidableEq

/-- `Cable::UpdateCableLen` (winch.cpp, line 14). -/
def Cable.UpdateCableLen (c : Cable) (delta_length : ℚ) : Cable :=
  { c with length_ := c.home_length_ + delta_length }

/-- `Cable::GetLength(const double delta_length)` (winch.cpp, line 19): update, then read. -/
def Cable.GetLength (c : Cable) (delta_length : ℚ) : Cable × ℚ :=
  let c1 := c.UpdateCableLen delta_length
  (c1, c1.length_)

/-- Modelled from the spec: the argument-free overload `Cable::GetLength()` is declared in
`winch.h`, which is absent; the spec describes it as the pure read of `length`
("if a non-default delta is supplied, first performs updateLength, then returns length"). -/
def Cable.GetLengthNoUpdate (c : Cable) : ℚ := c.length_

/-- Modelled from the spec: `Cable::SetHomeLength` is defined in the absent `winch.h`;
"overwrites `home_length` directly; does not retroactively adjust `length`". -/
def Cable.SetHomeLength (c : Cable) (value : ℚ) : Cable :=
  { c with home_length_ := value }

/-- Modelled from the spec: `Cable::GetHomeLength` is defined in the absent `winch.h`;
"pure accessor". -/
def Cable.GetHomeLength (c : Cable) : ℚ := c.home_length_

/-! ## Servo drive interface -/

/-- Modelled from the spec: the raw drive status `(position, velocity, torque, fault flags)`
returned by `GetDriveStatus`; its type is declared outside `src/`. -/
structure DriveStatus where
  position : Int
  velocity : Int
  torque : Int
  fault_flags : Nat
  deriving DecidableEq

/-- The commands that the drive interface accepts. -/
inductive DriveCommand where
  | ChangePosition (target : Int)
  | ChangeVelocity (target : Int)
  | ChangeTorque (target : Int)
  | ChangeOpMode (mode : Int)
  deriving DecidableEq

/-- Modelled from the spec: the servo drive object `servo_`, whose class lives outside
`src/`. It is observed through the status it currently reports and the commands it has
been sent, oldest first. -/
structure Servo where
  drive : DriveStatus
  issued : List DriveCommand
  deriving DecidableEq

/-- Modelled from the spec: `GetDriveStatus() -> (position, velocity, torque, fault flags)`. -/
def Servo.GetDriveStatus (s : Servo) : DriveStatus := s.drive

/-- Modelled from the spec: `GetPosition()`, the drive's current raw position. -/
def Servo.GetPosition (s : Servo) : Int := s.drive.position

/-- Modelled from the spec: `ChangePosition(target)` hands one position command to the drive. -/
def Servo.ChangePosition (s : Servo) (target : Int) : Servo :=
  { s with issued := s.issued ++ [DriveCommand.ChangePosition target] }

/-- Modelled from the spec: `ChangeVelocity(target)` hands one velocity command to the drive. -/
def Servo.ChangeVelocity (s : Servo) (target : Int) : Servo :=
  { s with issued := s.issued ++ [DriveCommand.ChangeVelocity target] }

/-- Modelled from the spec: `ChangeTorque(target)` hands one torque command to the drive. -/
def Servo.ChangeTorque (s : Servo) (target : Int) : Servo :=
  { s with issued := s.issued ++ [DriveCommand.ChangeTorque target] }

/-- Modelled from the spec: `ChangeOpMode(mode)` hands one mode command to the drive. -/
def Servo.ChangeOpMode (s : Servo) (mode : Int) : Servo :=
  { s with issued := s.issued ++ [DriveCommand.ChangeOpMode mode] }

/-! ## Winch -/

/-- Modelled from the spec: `grabcdpr::WinchParams`, seen by the winch only through the
scalar `CountsToLengthFactor()` (length units per encoder count). -/
structure WinchParams where
  CountsToLengthFactor : ℚ
  deriving DecidableEq

/-- Modelled from the spec: `WinchStatus`, declared in the absent `winch.h`:
`{id, raw drive fields, cable_length, motor_position}`. -/
structure WinchStatus where
  id : Nat
  drive : DriveStatus
  cable_length : ℚ
  motor_position : Int
  deriving DecidableEq

/-- Modelled from the spec: the constructor `WinchStatus(id, drive_status)` used at
winch.cpp line 38; the motor position is the raw position of the drive status, the
cable length is filled in afterwards. -/
def WinchStatus.ofDrive (id : Nat) (d : DriveStatus) : WinchStatus :=
  { id := id, drive := d, cable_length := 0, motor_position := d.position }

/-- Class `Winch`: the data members used in winch.cpp. -/
structure Winch where
  params_ : WinchParams
  cable_ : Cable
  servo_ : Servo
  id_ : Nat
  servo_home_pos_ : Int
  deriving DecidableEq

/-- `Winch::CountsToLength` (winch.cpp, line 72). -/
def Winch.CountsToLength (w : Winch) (counts : Int) : ℚ :=
  counts * w.params_.CountsToLengthFactor

/-- `Winch::LengthToCounts` (winch.cpp, line 77). -/
def Winch.LengthToCounts (w : Winch) (length : ℚ) : Option Int :=
  divToInt length w.params_.CountsToLengthFactor

/-- `Winch::UpdateConfig` (winch.cpp, line 67). -/
def Winch.UpdateConfig (w : Winch) (servo_pos : Int) : Option Winch :=
  match checkedInt (servo_pos - w.servo_home_pos_) with
  | none => none
  | some counts => some { w with cable_ := w.cable_.UpdateCableLen (w.CountsToLength counts) }

/-- `Winch::GetStatus` (winch.cpp, line 36). -/
def Winch.GetStatus (w : Winch) : Option (Winch × WinchStatus) :=
  let status := WinchStatus.ofDrive w.id_ w.servo_.GetDriveStatus
  match w.UpdateConfig status.motor_position with
  | none => none
  | some w1 => some (w1, { status with cable_length := w1.cable_.GetLengthNoUpdate })

/-- Modelled from the spec: `Winch::SetServoPos` is defined in the absent `winch.h`;
it "issues a position command to the drive". -/
def Winch.SetServoPos (w : Winch) (target_pos : Int) : Winch :=
  { w with servo_ := w.servo_.ChangePosition target_pos }

/-- `Winch::SetServoPosByCableLen` (winch.cpp, line 44). -/
def Winch.SetServoPosByCableLen (w : Winch) (target_length : ℚ) : Option Winch :=
  match w.LengthToCounts (target_length - w.cable_.GetHomeLength) with
  | none => none
  | some counts =>
    match checkedInt (w.servo_home_pos_ + counts) with
    | none => none
    | some target => some (w.SetServoPos target)

/-- `Winch::SetServoSpeed` (winch.cpp, line 49). -/
def Winch.SetServoSpeed (w : Winch) (target_speed : Int) : Winch :=
  { w with servo_ := w.servo_.ChangeVelocity target_speed }

/-- `Winch::SetServoTorque` (winch.cpp, line 54). -/
def Winch.SetServoTorque (w : Winch) (target_torque : Int) : Winch :=
  { w with servo_ := w.servo_.ChangeTorque target_torque }

/-- `Winch::SetServoOpMode` (winch.cpp, line 59). -/
def Winch.SetServoOpMode (w : Winch) (op_mode : Int) : Winch :=
  { w with servo_ := w.servo_.ChangeOpMode op_mode }

/-- `Winch::UpdateHomeConfig` (winch.cpp, line 61). -/
def Winch.UpdateHomeConfig (w : Winch) (cable_len : ℚ) : Winch :=
  { w with cable_ := w.cable_.SetHomeLength cable_len,
           servo_home_pos_ := w.servo_.GetPosition }

/-! ## Environment and test fixtures -/

/-- A winch with the given calibration, scale factor and reported drive position; the
last computed cable length is the home length and no command has been issued. -/
def mkWinch (f H : ℚ) (p0 p : Int) : Winch :=
  { params_ := { CountsToLengthFactor := f },
    cable_ := { home_length_ := H, length_ := H },
    servo_ := { drive := { position := p, velocity := 0, torque := 0, fault_flags := 0 },
                issued := [] },
    id_ := 0,
    servo_home_pos_ := p0 }

/-- The characterisation of truncation toward zero: `n` is no larger in magnitude than
`q`, less than one away from it, and not of the opposite sign. -/
def IsTruncationOf (n : Int) (q : ℚ) : Prop :=
  |(n : ℚ)| ≤ |q| ∧ |q| < |(n : ℚ)| + 1 ∧ (0 ≤ q → 0 ≤ n) ∧ (q ≤ 0 → n ≤ 0)

instance (n : Int) (q : ℚ) : Decidable (IsTruncationOf n q) := by
  unfold IsTruncationOf; infer_instance

/-! ## IEEE binary64 reading of the `double` arithmetic

The definitions above compute with exact rationals. The definitions of this section embed
the same source lines with every `double` operation correctly rounded to the binary64
format (round to nearest, ties to even, the default rounding mode): 53 significant bits,
unit in the last place no smaller than `2^-1074`, overflow above `DBL_MAX`. Inputs of type
`double` (target and home lengths, the scale factor) are finite rationals, meant to satisfy
`IsDouble`; a computed `double` is a `Double`, where `none` stands for a value that is not
finite (an infinity or a NaN). -/

namespace Binary64

/-- Exponent of the unit in the last place of the binary64 format at the magnitude of `x`:
53-bit significands, and no exponent below `-1074` (subnormal range). -/
def ulpExponent (x : ℚ) : Int :=
  if x = 0 then -1074 else max (Int.log 2 |x| - 52) (-1074)

/-- Rounding of a rational to the nearest integer, ties to the even one. -/
def roundHalfEven (m : ℚ) : Int :=
  if m - ⌊m⌋ < 1 / 2 then ⌊m⌋
  else if 1 / 2 < m - ⌊m⌋ then ⌊m⌋ + 1
  else if ⌊m⌋ % 2 = 0 then ⌊m⌋ else ⌊m⌋ + 1

/-- Largest finite binary64 value, `(2^53 - 1) * 2^971`. -/
def DBL_MAX : ℚ := (2 ^ 53 - 1) * 2 ^ 971

/-- Correctly rounded binary64 value of the exact result `x` of an operation (nearest, ties
to even); `none` when the rounded value exceeds `DBL_MAX` (the operation overflows to an
infinity). -/
def round64 (x : ℚ) : Option ℚ :=
  if |(roundHalfEven (x / 2 ^ ulpExponent x) : ℚ) * 2 ^ ulpExponent x| ≤ DBL_MAX then
    some ((roundHalfEven (x / 2 ^ ulpExponent x) : ℚ) * 2 ^ ulpExponent x)
  else none

/-- The rational is a finite binary64 value: rounding leaves it unchanged. -/
def IsDouble (x : ℚ) : Prop := round64 x = some x

instance (x : ℚ) : Decidable (IsDouble x) := by
  unfold IsDouble; infer_instance

/-- A computed `double`: a finite value, or `none` for an infinity or a NaN. -/
abbrev Double := Option ℚ

/-- The `double` addition `a + b`. -/
def fadd (a b : Double) : Double :=
  match a, b with
  | some x, some y => round64 (x + y)
  | _, _ => none

/-- The `double` subtraction `a - b`. -/
def fsub (a b : Double) : Double :=
  match a, b with
  | some x, some y => round64 (x - y)
  | _, _ => none

/-- The `double` multiplication `a * b`. -/
def fmul (a b : Double) : Double :=
  match a, b with
  | some x, some y => round64 (x * y)
  | _, _ => none

/-- The `double` division `a / f` by a finite divisor `f`: a zero divisor gives an infinity
or a NaN, and so does a dividend that is not finite. -/
def fdiv (a : Double) (f : ℚ) : Double :=
  match a with
  | some x => if f = 0 then none else round64 (x / f)
  | none => none

/-- The conversion of an `int` to `double`, exact for 32-bit values. -/
def ofInt (n : Int) : Double := some (n : ℚ)

/-- The conversion `static_cast<int>(a)` of a `double`: truncation toward zero; undefined
when `a` is not finite or the truncated value is not representable. -/
def toInt (a : Double) : Option Int :=
  match a with
  | some x => checkedInt (truncate x)
  | none => none

/-- Class `Cable` with binary64 arithmetic: `home_length_` (finite) and `length_`. -/
structure Cable where
  home_length_ : ℚ
  length_ : Double
  deriving DecidableEq

/-- `Cable::UpdateCableLen` (winch.cpp, line 14). -/
def Cable.UpdateCableLen (c : Cable) (delta_length : Double) : Cable :=
  { c with length_ := fadd (some c.home_length_) delta_length }

/-- `Cable::GetLength(const double delta_length)` (winch.cpp, line 19). -/
def Cable.GetLength (c : Cable) (delta_length : Double) : Cable × Double :=
  let c1 := c.UpdateCableLen delta_length
  (c1, c1.length_)

/-- Modelled from the spec: the argument-free overload `Cable::GetLength()` of the absent
`winch.h`, the pure read of `length`. -/
def Cable.GetLengthNoUpdate (c : Cable) : Double := c.length_

/-- Modelled from the spec: `Cable::SetHomeLength` of the absent `winch.h`; "overwrites
`home_length` directly; does not retroactively adjust `length`". -/
def Cable.SetHomeLength (c : Cable) (value : ℚ) : Cable :=
  { c with home_length_ := value }

/-- Modelled from the spec: `Cable::GetHomeLength` of the absent `winch.h`; "pure
accessor". -/
def Cable.GetHomeLength (c : Cable) : ℚ := c.home_length_

/-- Modelled from the spec: `WinchStatus` of the absent `winch.h`, with a binary64
`cable_length`. -/
structure WinchStatus where
  id : Nat
  drive : DriveStatus
  cable_length : Double
  motor_position : Int
  deriving DecidableEq

/-- Modelled from the spec: the constructor `WinchStatus(id, drive_status)` used at
winch.cpp line 38. -/
def WinchStatus.ofDrive (id : Nat) (d : DriveStatus) : WinchStatus :=
  { id := id, drive := d, cable_length := some 0, motor_position := d.position }

/-- Class `Winch` with binary64 arithmetic: the data members used in winch.cpp. -/
structure Winch where
  params_ : WinchParams
  cable_ : Cable
  servo_ : Servo
  id_ : Nat
  servo_home_pos_ : Int
  deriving DecidableEq

/-- `Winch::CountsToLength` (winch.cpp, line 72): the `int` is converted to `double` and
multiplied by the factor. -/
def Winch.CountsToLength (w : Winch) (counts : Int) : Double :=
  fmul (ofInt counts) (some w.params_.CountsToLengthFactor)

/-- `Winch::LengthToCounts` (winch.cpp, line 77). -/
def Winch.LengthToCounts (w : Winch) (length : Double) : Option Int :=
  toInt (fdiv length w.params_.CountsToLengthFactor)

/-- `Winch::UpdateConfig` (winch.cpp, line 67). -/
def Winch.UpdateConfig (w : Winch) (servo_pos : Int) : Option Winch :=
  match checkedInt (servo_pos - w.servo_home_pos_) with
  | none => none
  | some counts => some { w with cable_ := w.cable_.UpdateCableLen (w.CountsToLength counts) }

/-- `Winch::GetStatus` (winch.cpp, line 36). -/
def Winch.GetStatus (w : Winch) : Option (Winch × WinchStatus) :=
  let status := WinchStatus.ofDrive w.id_ w.servo_.GetDriveStatus
  match w.UpdateConfig status.motor_position with
  | none => none
  | some w1 => some (w1, { status with cable_length := w1.cable_.GetLengthNoUpdate })

/-- Modelled from the spec: `Winch::SetServoPos` of the absent `winch.h`; it "issues a
position command to the drive". -/
def Winch.SetServoPos (w : Winch) (target_pos : Int) : Winch :=
  { w with servo_ := w.servo_.ChangePosition target_pos }

/-- `Winch::SetServoPosByCableLen` (winch.cpp, line 44). -/
def Winch.SetServoPosByCableLen (w : Winch) (target_length : ℚ) : Option Winch :=
  match w.LengthToCounts (fsub (some target_length) (some w.cable_.GetHomeLength)) with
  | none => none
  | some counts =>
    match checkedInt (w.servo_home_pos_ + counts) with
    | none => none
    | some target => some (w.SetServoPos target)

/-- `Winch::UpdateHomeConfig` (winch.cpp, line 61). -/
def Winch.UpdateHomeConfig (w : Winch) (cable_len : ℚ) : Winch :=
  { w with cable_ := w.cable_.SetHomeLength cable_len,
           servo_home_pos_ := w.servo_.GetPosition }

/-- A winch with the given calibration, scale factor and reported drive position; the
last computed cable length is the home length and no command has been issued. -/
def mkWinch (f H : ℚ) (p0 p : Int) : Winch :=
  { params_ := { CountsToLengthFactor := f },
    cable_ := { home_length_ := H, length_ := some H },
    servo_ := { drive := { position := p, velocity := 0, torque := 0, fault_flags := 0 },
                issued := [] },
    id_ := 0,
    servo_home_pos_ := p0 }

/-- The binary64 value nearest to the decimal 0.001 (the `double` literal `0.001`). -/
def d0_001 : ℚ := 1152921504606847 / 2 ^ 60

end Binary64

/-! ## Truncation toward zero -/

theorem truncate_of_nonneg {x : ℚ} (h : 0 ≤ x) : truncate x = ⌊x⌋ := by
  simp [truncate, h]

theorem truncate_of_neg {x : ℚ} (h : x < 0) : truncate x = ⌈x⌉ := by
  simp [truncate, not_le.mpr h]

theorem truncate_intCast (n : Int) : truncate (n : ℚ) = n := by
  unfold truncate
  split <;> simp

theorem truncate_isTruncationOf (q : ℚ) : IsTruncationOf (truncate q) q := by
  unfold IsTruncationOf
  rcases le_or_lt 0 q with h | h
  · rw [truncate_of_nonneg h]
    have h0 : (0 : ℚ) ≤ ((⌊q⌋ : Int) : ℚ) := by exact_mod_cast Int.floor_nonneg.mpr h
    have h1 : ((⌊q⌋ : Int) : ℚ) ≤ q := Int.floor_le q
    have h2 : q < ((⌊q⌋ : Int) : ℚ) + 1 := Int.lt_floor_add_one q
    rw [abs_of_nonneg h0, abs_of_nonneg h]
    refine ⟨h1, h2, fun _ => Int.floor_nonneg.mpr h, fun hq => ?_⟩
    have : q = 0 := le_antisymm hq h
    subst this
    simp
  · rw [truncate_of_neg h]
    have h1 : q ≤ ((⌈q⌉ : Int) : ℚ) := Int.le_ceil q
    have h2 : ((⌈q⌉ : Int) : ℚ) < q + 1 := Int.ceil_lt_add_one q
    have h0i : ⌈q⌉ ≤ 0 := by
      have : ⌈q⌉ ≤ ((0 : Int)) := Int.ceil_le.mpr (by simpa using h.le)
      exact this
    have h0 : ((⌈q⌉ : Int) : ℚ) ≤ 0 := by exact_mod_cast h0i
    rw [abs_of_nonpos h0, abs_of_neg h]
    refine ⟨by linarith, by linarith, fun hq => absurd hq (not_le.mpr h), fun _ => h0i⟩

theorem eq_truncate_of_isTruncationOf {n : Int} {q : ℚ} (h : IsTruncationOf n q) :
    n = truncate q := by
  obtain ⟨h1, h2, h3, h4⟩ := h
  rcases le_or_lt 0 q with hq | hq
  · have hn : (0 : ℚ) ≤ (n : ℚ) := by exact_mod_cast h3 hq
    rw [abs_of_nonneg hn, abs_of_nonneg hq] at h1 h2
    rw [truncate_of_nonneg hq]
    exact (Int.floor_eq_iff.mpr ⟨h1, h2⟩).symm
  · have hn : (n : ℚ) ≤ 0 := by exact_mod_cast h4 hq.le
    rw [abs_of_nonpos hn, abs_of_neg hq] at h1 h2
    rw [truncate_of_neg hq]
    exact (Int.ceil_eq_iff.mpr ⟨by linarith, by linarith⟩).symm

theorem truncate_eq_iff (n : Int) (q : ℚ) : truncate q = n ↔ IsTruncationOf n q :=
  ⟨fun h => h ▸ truncate_isTruncationOf q, fun h => (eq_truncate_of_isTruncationOf h).symm⟩

/-! ## Evaluation lemmas for the checked integer operations -/

theorem checkedInt_of_inIntRange {n : Int} (h : inIntRange n) : checkedInt n = some n := by
  simp [checkedInt, h]

theorem checkedInt_of_not_inIntRange {n : Int} (h : ¬ inIntRange n) : checkedInt n = none := by
  simp [checkedInt, h]

theorem checkedInt_eq_some_iff {n m : Int} : checkedInt n = some m ↔ inIntRange n ∧ m = n := by
  unfold checkedInt
  split
  · rename_i h
    simp [h, eq_comm]
  · rename_i h
    simp [h]

theorem getStatus_of_inIntRange (w : Winch)
    (h : inIntRange (w.servo_.drive.position - w.servo_home_pos_)) :
    w.GetStatus = some
      ({ w with cable_ := { w.cable_ with
            length_ := w.cable_.home_length_ +
              ((w.servo_.drive.position - w.servo_home_pos_ : Int) : ℚ) *
                w.params_.CountsToLengthFactor } },
       { id := w.id_, drive := w.servo_.drive,
         cable_length := w.cable_.home_length_ +
              ((w.servo_.drive.position - w.servo_home_pos_ : Int) : ℚ) *
                w.params_.CountsToLengthFactor,
         motor_position := w.servo_.drive.position }) := by
  simp [Winch.GetStatus, Winch.UpdateConfig, WinchStatus.ofDrive, Servo.GetDriveStatus,
    checkedInt_of_inIntRange h, Cable.UpdateCableLen, Cable.GetLengthNoUpdate,
    Winch.CountsToLength]

theorem getStatus_eq_none_of_not_inIntRange (w : Winch)
    (h : ¬ inIntRange (w.servo_.drive.position - w.servo_home_pos_)) :
    w.GetStatus = none := by
  simp [Winch.GetStatus, Winch.UpdateConfig, WinchStatus.ofDrive, Servo.GetDriveStatus,
    checkedInt_of_not_inIntRange h]

/-- C1 (as stated, refuted): with home position `-1` and the drive reporting `2147483647`
(both valid `int32_t` values) the difference `servo_pos - servo_home_pos_` is `2^31`, which
no `int` holds: `GetStatus` has no defined result, and no `int` value of `counts` passed to
`CountsToLength` could yield the claimed length `H + (p - p0) * f`. -/
theorem getStatus_formula_fails_on_int_overflow :
    inIntRange (2147483647 : Int) ∧ inIntRange (-1 : Int) ∧
    (mkWinch 1 0 (-1) 2147483647).GetStatus = none ∧
    (¬ ∃ w1 st, (mkWinch 1 0 (-1) 2147483647).GetStatus = some (w1, st) ∧
        st.motor_position = 2147483647 ∧
        st.cable_length = 0 + ((2147483647 : ℚ) - (-1 : ℚ)) * 1 ∧
        w1.cable_.length_ = 0 + ((2147483647 : ℚ) - (-1 : ℚ)) * 1) ∧
    (∀ counts : Int, inIntRange counts →
        (mkWinch 1 0 (-1) 2147483647).cable_.home_length_ +
          (mkWinch 1 0 (-1) 2147483647).CountsToLength counts ≠
            0 + ((2147483647 : ℚ) - (-1 : ℚ)) * 1) := by
  have hnone : (mkWinch 1 0 (-1) 2147483647).GetStatus = none := by
    apply getStatus_eq_none_of_not_inIntRange
    simp [mkWinch, inIntRange, INT_MIN, INT_MAX]
  refine ⟨by decide, by decide, hnone, ?_, ?_⟩
  · rintro ⟨w1, st, h, -⟩
    rw [hnone] at h
    exact Option.noConfusion h
  · intro counts hc heq
    have h2 : counts ≤ 2147483647 := hc.2
    have h3 : (counts : ℚ) ≤ 2147483647 := by exact_mod_cast h2
    simp [mkWinch, Winch.CountsToLength] at heq
    rw [heq] at h3
    norm_num at h3

/-- C1 (amended): whenever the displacement `p - p0` of the reported drive position from
the home position is representable as an `int`, `GetStatus` returns a status whose
`motor_position` is `p` and whose `cable_length` is `H + (p - p0) * f`, and leaves the
cable's length equal to that same value. -/
theorem getStatus_reports_length (w : Winch)
    (h : inIntRange (w.servo_.GetPosition - w.servo_home_pos_)) :
    ∃ w1 st, w.GetStatus = some (w1, st) ∧
      st.motor_position = w.servo_.GetPosition ∧
      st.cable_length = w.cable_.home_length_ +
        ((w.servo_.GetPosition : ℚ) - (w.servo_home_pos_ : ℚ)) *
          w.params_.CountsToLengthFactor ∧
      w1.cable_.length_ = w.cable_.home_length_ +
        ((w.servo_.GetPosition : ℚ) - (w.servo_home_pos_ : ℚ)) *
          w.params_.CountsToLengthFactor := by
  unfold Servo.GetPosition at *
  refine ⟨_, _, getStatus_of_inIntRange w h, rfl, ?_, ?_⟩ <;> simp

/-- C1 (witness): scale factor 0.001, home length 0.500, home position 10000 and a drive
reporting 10500 give `motor_position = 10500` and `cable_length = 1.000`. -/
theorem getStatus_reports_length_witness :
    inIntRange ((mkWinch (1 / 1000) (1 / 2) 10000 10500).servo_.GetPosition -
      (mkWinch (1 / 1000) (1 / 2) 10000 10500).servo_home_pos_) ∧
    ∃ w1 st, (mkWinch (1 / 1000) (1 / 2) 10000 10500).GetStatus = some (w1, st) ∧
      st.motor_position = 10500 ∧ st.cable_length = 1 ∧ w1.cable_.length_ = 1 := by
  have hr : inIntRange ((mkWinch (1 / 1000) (1 / 2) 10000 10500).servo_.GetPosition -
      (mkWinch (1 / 1000) (1 / 2) 10000 10500).servo_home_pos_) := by
    simp [mkWinch, Servo.GetPosition, inIntRange, INT_MIN, INT_MAX]
  obtain ⟨w1, st, h1, h2, h3, h4⟩ :=
    getStatus_reports_length (mkWinch (1 / 1000) (1 / 2) 10000 10500) hr
  refine ⟨hr, w1, st, h1, ?_, ?_, ?_⟩
  · simpa [mkWinch, Servo.GetPosition] using h2
  · rw [h3]; simp [mkWinch, Servo.GetPosition]; norm_num
  · rw [h4]; simp [mkWinch, Servo.GetPosition]; norm_num

/-! ## Homing -/

theorem updateHomeConfig_servo (w : Winch) (L : ℚ) : (w.UpdateHomeConfig L).servo_ = w.servo_ :=
  rfl

theorem iterate_updateHomeConfig_servo (w : Winch) (L : ℚ) (n : Nat) :
    ((fun v : Winch => v.UpdateHomeConfig L)^[n] w).servo_ = w.servo_ := by
  induction n generalizing w with
  | zero => rfl
  | succ k ih => rw [Function.iterate_succ_apply, ih, updateHomeConfig_servo]

theorem iterate_updateHomeConfig_calibration (w : Winch) (L : ℚ) (n : Nat) (hn : 1 ≤ n) :
    ((fun v : Winch => v.UpdateHomeConfig L)^[n] w).cable_.home_length_ = L ∧
    ((fun v : Winch => v.UpdateHomeConfig L)^[n] w).servo_home_pos_ = w.servo_.drive.position := by
  obtain ⟨k, rfl⟩ : ∃ k, n = k + 1 := ⟨n - 1, by omega⟩
  rw [Function.iterate_succ_apply']
  constructor
  · rfl
  · show ((fun v : Winch => v.UpdateHomeConfig L)^[k] w).servo_.drive.position = _
    rw [iterate_updateHomeConfig_servo]

/-- C2: for every length `L`, every prior winch state and every `n ≥ 1`, after `n`
successive calls of `UpdateHomeConfig L` (the drive keeping its position, as the calls
themselves leave the drive untouched), `GetStatus` succeeds and reports
`cable_length = L` exactly, at the unchanged motor position. -/
theorem getStatus_after_homing (w : Winch) (L : ℚ) (n : Nat) (hn : 1 ≤ n) :
    ((fun v : Winch => v.UpdateHomeConfig L)^[n] w).servo_ = w.servo_ ∧
    ∃ w1 st, ((fun v : Winch => v.UpdateHomeConfig L)^[n] w).GetStatus = some (w1, st) ∧
      st.cable_length = L ∧ st.motor_position = w.servo_.GetPosition ∧
      w1.cable_.length_ = L := by
  have hs := iterate_updateHomeConfig_servo w L n
  obtain ⟨hH, hp⟩ := iterate_updateHomeConfig_calibration w L n hn
  have hr : inIntRange (((fun v : Winch => v.UpdateHomeConfig L)^[n] w).servo_.drive.position -
      ((fun v : Winch => v.UpdateHomeConfig L)^[n] w).servo_home_pos_) := by
    rw [hp, hs, sub_self]
    decide
  refine ⟨hs, _, _, getStatus_of_inIntRange _ hr, ?_, ?_, ?_⟩
  · simp [hH, hp, hs]
  · simp [hs, Servo.GetPosition]
  · simp [hH, hp, hs]

/-- C2 (witness): first homing (`n = 1`) and re-homing (`n = 2`) at length 0.500 of a winch
that was calibrated differently and has a non-trivial scale factor. -/
theorem getStatus_after_homing_witness :
    (∃ w1 st, ((mkWinch (1 / 1000) 3 77 10000).UpdateHomeConfig (1 / 2)).GetStatus =
        some (w1, st) ∧ st.cable_length = 1 / 2) ∧
    (∃ w1 st, (((mkWinch (1 / 1000) 3 77 10000).UpdateHomeConfig (1 / 2)).UpdateHomeConfig
        (1 / 2)).GetStatus = some (w1, st) ∧ st.cable_length = 1 / 2) := by
  obtain ⟨-, w1, st, h1, h2, -⟩ :=
    getStatus_after_homing (mkWinch (1 / 1000) 3 77 10000) (1 / 2) 1 (le_refl 1)
  obtain ⟨-, w2, st2, h3, h4, -⟩ :=
    getStatus_after_homing (mkWinch (1 / 1000) 3 77 10000) (1 / 2) 2 (by decide)
  exact ⟨⟨w1, st, h1, h2⟩, ⟨w2, st2, h3, h4⟩⟩

/-! ## Position command from a target cable length -/

/-- C8: `CountsToLength` is monotone in the counts, in the direction given by the sign of
the scale factor: for `counts_a < counts_b` it is non-decreasing when the factor is
positive and non-increasing when the factor is negative. -/
theorem countsToLength_monotone (w : Winch) (counts_a counts_b : Int)
    (hab : counts_a < counts_b) :
    (0 < w.params_.CountsToLengthFactor →
      w.CountsToLength counts_a ≤ w.CountsToLength counts_b) ∧
    (w.params_.CountsToLengthFactor < 0 →
      w.CountsToLength counts_a ≥ w.CountsToLength counts_b) := by
  have hq : (counts_a : ℚ) ≤ (counts_b : ℚ) := by exact_mod_cast hab.le
  unfold Winch.CountsToLength
  exact ⟨fun hf => mul_le_mul_of_nonneg_right hq hf.le,
    fun hf => mul_le_mul_of_nonpos_right hq hf.le⟩

/-- C8 (witness): counts 3 < 7 with the positive factor 0.001 and with the negative factor
-0.001. -/
theorem countsToLength_monotone_witness :
    (3 : Int) < 7 ∧
    (mkWinch (1 / 1000) 0 0 0).CountsToLength 3 ≤ (mkWinch (1 / 1000) 0 0 0).CountsToLength 7 ∧
    (mkWinch (-1 / 1000) 0 0 0).CountsToLength 3 ≥ (mkWinch (-1 / 1000) 0 0 0).CountsToLength 7 :=
  ⟨by decide,
    (countsToLength_monotone (mkWinch (1 / 1000) 0 0 0) 3 7 (by decide)).1
      (by simp [mkWinch]),
    (countsToLength_monotone (mkWinch (-1 / 1000) 0 0 0) 3 7 (by decide)).2
      (by simp [mkWinch]; norm_num)⟩

/-! ## The calibration pair and the command pass-throughs -/

/-- C6: for every argument `x`, each of `SetServoSpeed x`, `SetServoTorque x` and
`SetServoOpMode x` hands exactly one command to the drive, of the matching kind
(`ChangeVelocity`, `ChangeTorque`, `ChangeOpMode`) and carrying `x` unmodified, issues no
other command, and leaves the rest of the winch as it was. -/
theorem passthrough_issues_one_command (w : Winch) (x : Int) :
    ((w.SetServoSpeed x).servo_.issued = w.servo_.issued ++ [DriveCommand.ChangeVelocity x] ∧
      (w.SetServoSpeed x).servo_.drive = w.servo_.drive ∧
      (w.SetServoSpeed x).cable_ = w.cable_ ∧
      (w.SetServoSpeed x).servo_home_pos_ = w.servo_home_pos_) ∧
    ((w.SetServoTorque x).servo_.issued = w.servo_.issued ++ [DriveCommand.ChangeTorque x] ∧
      (w.SetServoTorque x).servo_.drive = w.servo_.drive ∧
      (w.SetServoTorque x).cable_ = w.cable_ ∧
      (w.SetServoTorque x).servo_home_pos_ = w.servo_home_pos_) ∧
    ((w.SetServoOpMode x).servo_.issued = w.servo_.issued ++ [DriveCommand.ChangeOpMode x] ∧
      (w.SetServoOpMode x).servo_.drive = w.servo_.drive ∧
      (w.SetServoOpMode x).cable_ = w.cable_ ∧
      (w.SetServoOpMode x).servo_home_pos_ = w.servo_home_pos_) :=
  ⟨⟨rfl, rfl, rfl, rfl⟩, ⟨rfl, rfl, rfl, rfl⟩, ⟨rfl, rfl, rfl, rfl⟩⟩

/-! ## Range and error of the truncation -/

theorem truncate_inIntRange_iff (q : ℚ) :
    inIntRange (truncate q) ↔ (INT_MIN : ℚ) - 1 < q ∧ q < (INT_MAX : ℚ) + 1 := by
  obtain ⟨h1, h2, h3, h4⟩ := truncate_isTruncationOf q
  unfold inIntRange
  have c1 : (INT_MIN : ℚ) ≤ 0 := by norm_num [INT_MIN]
  have c2 : (0 : ℚ) ≤ (INT_MAX : ℚ) := by norm_num [INT_MAX]
  have d1 : INT_MIN ≤ 0 := by decide
  have d2 : 0 ≤ INT_MAX := by decide
  rcases le_or_lt 0 q with hq | hq
  · have hn : 0 ≤ truncate q := h3 hq
    have hnq : (0 : ℚ) ≤ (truncate q : ℚ) := by exact_mod_cast hn
    rw [abs_of_nonneg hnq, abs_of_nonneg hq] at h1 h2
    constructor
    · rintro ⟨-, hb⟩
      have hbq : (truncate q : ℚ) ≤ (INT_MAX : ℚ) := by exact_mod_cast hb
      exact ⟨by linarith, by linarith⟩
    · rintro ⟨-, hb⟩
      refine ⟨le_trans d1 hn, ?_⟩
      have : (truncate q : ℚ) < (INT_MAX : ℚ) + 1 := lt_of_le_of_lt h1 hb
      have : truncate q < INT_MAX + 1 := by exact_mod_cast this
      omega
  · have hn : truncate q ≤ 0 := h4 hq.le
    have hnq : (truncate q : ℚ) ≤ 0 := by exact_mod_cast hn
    rw [abs_of_nonpos hnq, abs_of_neg hq] at h1 h2
    constructor
    · rintro ⟨ha, -⟩
      have haq : (INT_MIN : ℚ) ≤ (truncate q : ℚ) := by exact_mod_cast ha
      exact ⟨by linarith, by linarith⟩
    · rintro ⟨ha, -⟩
      refine ⟨?_, le_trans hn d2⟩
      have : (INT_MIN : ℚ) - 1 < (truncate q : ℚ) := by linarith
      have : INT_MIN - 1 < truncate q := by exact_mod_cast this
      omega

theorem truncate_bounds (q : ℚ) :
    (0 ≤ q → (0 : ℚ) ≤ (truncate q : ℚ) ∧ (truncate q : ℚ) ≤ q ∧ q < (truncate q : ℚ) + 1) ∧
    (q ≤ 0 → q ≤ (truncate q : ℚ) ∧ (truncate q : ℚ) ≤ 0 ∧ (truncate q : ℚ) - 1 < q) := by
  obtain ⟨h1, h2, h3, h4⟩ := truncate_isTruncationOf q
  constructor
  · intro hq
    have hn : (0 : ℚ) ≤ (truncate q : ℚ) := by exact_mod_cast h3 hq
    rw [abs_of_nonneg hn, abs_of_nonneg hq] at h1 h2
    exact ⟨hn, h1, h2⟩
  · intro hq
    have hn : (truncate q : ℚ) ≤ 0 := by exact_mod_cast h4 hq
    rw [abs_of_nonpos hn, abs_of_nonpos hq] at h1 h2
    exact ⟨by linarith, hn, by linarith⟩

theorem abs_sub_truncate_lt_one (q : ℚ) : |q - (truncate q : ℚ)| < 1 := by
  rw [abs_lt]
  rcases le_or_lt 0 q with hq | hq
  · obtain ⟨-, h1, h2⟩ := (truncate_bounds q).1 hq
    exact ⟨by linarith, by linarith⟩
  · obtain ⟨h1, -, h2⟩ := (truncate_bounds q).2 hq.le
    exact ⟨by linarith, by linarith⟩

namespace Binary64

/-! ## Rounding to binary64 -/

theorem roundHalfEven_sub_le (m : ℚ) : |(roundHalfEven m : ℚ) - m| ≤ 1 / 2 := by
  have h1 : ((⌊m⌋ : Int) : ℚ) ≤ m := Int.floor_le m
  have h2 : m < ((⌊m⌋ : Int) : ℚ) + 1 := Int.lt_floor_add_one m
  unfold roundHalfEven
  rw [abs_le]
  split_ifs with a b c
  · constructor <;> linarith
  · push_cast; constructor <;> linarith
  · constructor <;> linarith
  · push_cast; constructor <;> linarith

theorem roundHalfEven_eq_of_close {m : ℚ} {n : Int} (h : |m - (n : ℚ)| < 1 / 2) :
    roundHalfEven m = n := by
  have h0 := roundHalfEven_sub_le m
  rw [abs_lt] at h
  rw [abs_le] at h0
  have h3 : ((roundHalfEven m : Int) : ℚ) - (n : ℚ) < 1 := by linarith
  have h4 : (-1 : ℚ) < ((roundHalfEven m : Int) : ℚ) - (n : ℚ) := by linarith
  have h5 : roundHalfEven m - n < 1 := by exact_mod_cast h3
  have h6 : -1 < roundHalfEven m - n := by exact_mod_cast h4
  omega

theorem roundHalfEven_intCast (n : Int) : roundHalfEven (n : ℚ) = n :=
  roundHalfEven_eq_of_close (by simp)

theorem ulpExponent_ge (x : ℚ) : -1074 ≤ ulpExponent x := by
  unfold ulpExponent
  split
  · exact le_refl _
  · exact le_max_right _ _

theorem ulpExponent_eq_of_normal {x : ℚ} {e : Int} (he : -1074 ≤ e)
    (h1 : (2 : ℚ) ^ (e + 52) ≤ |x|) (h2 : |x| < (2 : ℚ) ^ (e + 53)) : ulpExponent x = e := by
  have hpos : 0 < |x| := lt_of_lt_of_le (by positivity) h1
  have hl : Int.log 2 |x| = e + 52 := by
    apply le_antisymm
    · have := (Int.lt_zpow_iff_log_lt (b := 2) (by norm_num) hpos (x := e + 53)).mp
        (by exact_mod_cast h2)
      omega
    · exact (Int.zpow_le_iff_le_log (b := 2) (by norm_num) hpos).mp (by exact_mod_cast h1)
  have hx : x ≠ 0 := abs_pos.mp hpos
  unfold ulpExponent
  rw [if_neg hx, hl]
  omega

theorem ulpExponent_eq_of_subnormal {x : ℚ} (h : |x| < (2 : ℚ) ^ (-1022 : Int)) :
    ulpExponent x = -1074 := by
  unfold ulpExponent
  split
  · rfl
  · rename_i hx
    have hpos : 0 < |x| := abs_pos.mpr hx
    have := (Int.lt_zpow_iff_log_lt (b := 2) (by norm_num) hpos (x := -1022)).mp
      (by exact_mod_cast h)
    omega

theorem two_zpow_ulpExponent_le (x : ℚ) :
    (2 : ℚ) ^ ulpExponent x ≤ |x| / 2 ^ 52 ∨ ulpExponent x = -1074 := by
  unfold ulpExponent
  split
  · exact Or.inr rfl
  · rename_i hx
    rcases le_total (Int.log 2 |x| - 52) (-1074) with h | h
    · exact Or.inr (max_eq_right h)
    · left
      rw [max_eq_left h, zpow_sub₀ (by norm_num)]
      have := Int.zpow_log_le_self (b := 2) (r := |x|) (by norm_num) (abs_pos.mpr hx)
      have h52 : (2 : ℚ) ^ (52 : Int) = 2 ^ 52 := by norm_num
      rw [h52]
      exact div_le_div_of_nonneg_right (by exact_mod_cast this) (by positivity)

theorem round64_eq_some_iff (x r : ℚ) :
    round64 x = some r ↔
      r = (roundHalfEven (x / 2 ^ ulpExponent x) : ℚ) * 2 ^ ulpExponent x ∧ |r| ≤ DBL_MAX := by
  unfold round64
  split
  · rename_i h
    constructor
    · intro e
      have := Option.some.inj e
      subst this
      exact ⟨rfl, h⟩
    · rintro ⟨e, -⟩
      rw [e]
  · rename_i h
    constructor
    · intro e; exact Option.noConfusion e
    · rintro ⟨e, hr⟩
      rw [e] at hr
      exact absurd hr h

theorem round64_error {x r : ℚ} (h : round64 x = some r) :
    |r - x| ≤ 2 ^ ulpExponent x / 2 := by
  obtain ⟨rfl, -⟩ := (round64_eq_some_iff x r).mp h
  have hp : (0 : ℚ) < 2 ^ ulpExponent x := by positivity
  have h1 := roundHalfEven_sub_le (x / 2 ^ ulpExponent x)
  have e : (roundHalfEven (x / 2 ^ ulpExponent x) : ℚ) * 2 ^ ulpExponent x - x =
      ((roundHalfEven (x / 2 ^ ulpExponent x) : ℚ) - x / 2 ^ ulpExponent x) *
        2 ^ ulpExponent x := by
    field_simp
  rw [e, abs_mul, abs_of_pos hp]
  calc |(roundHalfEven (x / 2 ^ ulpExponent x) : ℚ) - x / 2 ^ ulpExponent x| * 2 ^ ulpExponent x
      ≤ 1 / 2 * 2 ^ ulpExponent x := mul_le_mul_of_nonneg_right h1 hp.le
    _ = 2 ^ ulpExponent x / 2 := by ring

theorem round64_error_le {x r : ℚ} (h : round64 x = some r) :
    |r - x| ≤ |x| / 2 ^ 53 ∨ |r - x| ≤ 1 / 2 ^ 1075 := by
  have h1 := round64_error h
  rcases two_zpow_ulpExponent_le x with h2 | h2
  · left
    calc |r - x| ≤ 2 ^ ulpExponent x / 2 := h1
      _ ≤ |x| / 2 ^ 52 / 2 := by linarith
      _ = |x| / 2 ^ 53 := by ring
  · right
    rw [h2] at h1
    calc |r - x| ≤ (2 : ℚ) ^ (-1074 : Int) / 2 := h1
      _ = 1 / 2 ^ 1075 := by norm_num

theorem round64_error_add {x r : ℚ} (h : round64 x = some r) :
    |r - x| ≤ |x| / 2 ^ 53 + 1 / 2 ^ 1075 := by
  have hx : (0 : ℚ) ≤ |x| / 2 ^ 53 := by positivity
  rcases round64_error_le h with h1 | h1
  · have : (0 : ℚ) ≤ 1 / 2 ^ 1075 := by positivity
    linarith
  · linarith

theorem round64_eq_of_normal {x : ℚ} {e n : Int} (he : -1074 ≤ e)
    (h1 : (2 : ℚ) ^ (e + 52) ≤ |x|) (h2 : |x| < (2 : ℚ) ^ (e + 53))
    (hc : |x / 2 ^ e - (n : ℚ)| < 1 / 2) (hmax : |(n : ℚ) * 2 ^ e| ≤ DBL_MAX) :
    round64 x = some ((n : ℚ) * 2 ^ e) := by
  rw [round64_eq_some_iff, ulpExponent_eq_of_normal he h1 h2, roundHalfEven_eq_of_close hc]
  exact ⟨rfl, hmax⟩

theorem round64_eq_none_of_normal {x : ℚ} {e n : Int} (he : -1074 ≤ e)
    (h1 : (2 : ℚ) ^ (e + 52) ≤ |x|) (h2 : |x| < (2 : ℚ) ^ (e + 53))
    (hc : |x / 2 ^ e - (n : ℚ)| < 1 / 2) (hmax : DBL_MAX < |(n : ℚ) * 2 ^ e|) :
    round64 x = none := by
  cases h : round64 x with
  | none => rfl
  | some r =>
    obtain ⟨hr, hle⟩ := (round64_eq_some_iff x r).mp h
    rw [ulpExponent_eq_of_normal he h1 h2, roundHalfEven_eq_of_close hc] at hr
    rw [hr] at hle
    exact absurd hle (not_le.mpr hmax)

theorem round64_isSome_of_abs_le {x B : ℚ} (hB : |x| ≤ B)
    (hmax : B + B / 2 ^ 53 + 1 / 2 ^ 1075 ≤ DBL_MAX) : ∃ r, round64 x = some r := by
  have hp : (0 : ℚ) < 2 ^ ulpExponent x := by positivity
  have h1 := roundHalfEven_sub_le (x / 2 ^ ulpExponent x)
  have e : (roundHalfEven (x / 2 ^ ulpExponent x) : ℚ) * 2 ^ ulpExponent x - x =
      ((roundHalfEven (x / 2 ^ ulpExponent x) : ℚ) - x / 2 ^ ulpExponent x) *
        2 ^ ulpExponent x := by
    field_simp
  have h2 : |(roundHalfEven (x / 2 ^ ulpExponent x) : ℚ) * 2 ^ ulpExponent x - x| ≤
      2 ^ ulpExponent x / 2 := by
    rw [e, abs_mul, abs_of_pos hp]
    calc |(roundHalfEven (x / 2 ^ ulpExponent x) : ℚ) - x / 2 ^ ulpExponent x| *
          2 ^ ulpExponent x
        ≤ 1 / 2 * 2 ^ ulpExponent x := mul_le_mul_of_nonneg_right h1 hp.le
      _ = 2 ^ ulpExponent x / 2 := by ring
  have h3 : (2 : ℚ) ^ ulpExponent x / 2 ≤ B / 2 ^ 53 + 1 / 2 ^ 1075 := by
    have hB0 : (0 : ℚ) ≤ B / 2 ^ 53 := by
      have : (0 : ℚ) ≤ B := le_trans (abs_nonneg x) hB
      positivity
    rcases two_zpow_ulpExponent_le x with h | h
    · have : |x| / 2 ^ 52 ≤ B / 2 ^ 52 := div_le_div_of_nonneg_right hB (by positivity)
      have h4 : (0 : ℚ) ≤ 1 / 2 ^ 1075 := by positivity
      calc (2 : ℚ) ^ ulpExponent x / 2 ≤ B / 2 ^ 52 / 2 := by linarith
        _ = B / 2 ^ 53 := by ring
        _ ≤ B / 2 ^ 53 + 1 / 2 ^ 1075 := by linarith
    · rw [h]
      have : (2 : ℚ) ^ (-1074 : Int) / 2 = 1 / 2 ^ 1075 := by norm_num
      rw [this]
      linarith
  refine ⟨_, (round64_eq_some_iff x _).mpr ⟨rfl, ?_⟩⟩
  have h5 := abs_sub_abs_le_abs_sub
    ((roundHalfEven (x / 2 ^ ulpExponent x) : ℚ) * 2 ^ ulpExponent x) x
  linarith

theorem round64_grid {x r : ℚ} (h : round64 x = some r) :
    ∃ k : Int, r = (k : ℚ) * 2 ^ (-1074 : Int) := by
  obtain ⟨hr, -⟩ := (round64_eq_some_iff x r).mp h
  obtain ⟨t, ht⟩ := Int.eq_ofNat_of_zero_le (a := ulpExponent x + 1074)
    (by have := ulpExponent_ge x; omega)
  have he : ulpExponent x = (t : Int) + (-1074) := by omega
  refine ⟨roundHalfEven (x / 2 ^ ulpExponent x) * 2 ^ t, ?_⟩
  rw [hr, he, zpow_add₀ (by norm_num : (2 : ℚ) ≠ 0)]
  push_cast
  rw [zpow_natCast]
  ring

theorem round64_error_of_grid {x r : ℚ} (hx : ∃ k : Int, x = (k : ℚ) * 2 ^ (-1074 : Int))
    (h : round64 x = some r) : |r - x| ≤ |x| / 2 ^ 53 := by
  have h1 := round64_error h
  rcases two_zpow_ulpExponent_le x with h2 | h2
  · calc |r - x| ≤ 2 ^ ulpExponent x / 2 := h1
      _ ≤ |x| / 2 ^ 52 / 2 := by linarith
      _ = |x| / 2 ^ 53 := by ring
  · obtain ⟨hr, -⟩ := (round64_eq_some_iff x r).mp h
    obtain ⟨k, hk⟩ := hx
    have hm : x / 2 ^ ulpExponent x = (k : ℚ) := by
      rw [h2, hk]
      field_simp
    rw [hm, roundHalfEven_intCast, h2, ← hk] at hr
    rw [hr, sub_self, abs_zero]
    positivity

/-! ## Truncation of a rounded value -/

theorem abs_truncate_sub_le_one {q : ℚ} {c : Int} (h : |q - (c : ℚ)| < 1) :
    |truncate q - c| ≤ 1 := by
  have h1 := abs_sub_truncate_lt_one q
  rw [abs_lt] at h h1
  have h2 : ((truncate q : Int) : ℚ) - (c : ℚ) < 2 := by linarith
  have h3 : (-2 : ℚ) < ((truncate q : Int) : ℚ) - (c : ℚ) := by linarith
  have h4 : truncate q - c < 2 := by exact_mod_cast h2
  have h5 : -2 < truncate q - c := by exact_mod_cast h3
  rw [abs_le]
  omega

theorem abs_intCast_le_of_inIntRange {c : Int} (hc : inIntRange c) :
    |(c : ℚ)| ≤ 2 ^ 31 := by
  obtain ⟨h1, h2⟩ := hc
  have h3 : (-2147483648 : ℚ) ≤ (c : ℚ) := by exact_mod_cast h1
  have h4 : (c : ℚ) ≤ 2147483647 := by exact_mod_cast h2
  rw [abs_le]
  constructor <;> norm_num <;> linarith

/-! ## Round trip of the conversions in binary64 -/

theorem countsToLength_eq (w : Winch) (counts : Int) :
    w.CountsToLength counts = round64 ((counts : ℚ) * w.params_.CountsToLengthFactor) := rfl

theorem lengthToCounts_some_eq (w : Winch) (x : ℚ) (hf : w.params_.CountsToLengthFactor ≠ 0) :
    w.LengthToCounts (some x) =
      toInt (round64 (x / w.params_.CountsToLengthFactor)) := by
  simp [Winch.LengthToCounts, fdiv, hf]

theorem toInt_some (x : ℚ) : toInt (some x) = checkedInt (truncate x) := rfl

theorem toInt_eq_some_of_lt {q : ℚ} (hlo : (INT_MIN : ℚ) - 1 < q) (hhi : q < (INT_MAX : ℚ) + 1) :
    toInt (some q) = some (truncate q) := by
  unfold toInt
  exact checkedInt_of_inIntRange ((truncate_inIntRange_iff q).mpr ⟨hlo, hhi⟩)

/-- C4 (as stated, refuted): for the finite non-zero scale factor `2^1023` and 2 counts the
product `2^1024` overflows the binary64 range, so `CountsToLength 2` is an infinity, the
quotient is an infinity as well and its conversion to `int` is undefined: the round trip
has no result at all. -/
theorem round_trip_undefined_on_overflow :
    IsDouble (2 ^ 1023) ∧ (mkWinch (2 ^ 1023) 0 0 0).params_.CountsToLengthFactor ≠ 0 ∧
    inIntRange 2 ∧
    (mkWinch (2 ^ 1023) 0 0 0).CountsToLength 2 = none ∧
    (mkWinch (2 ^ 1023) 0 0 0).LengthToCounts ((mkWinch (2 ^ 1023) 0 0 0).CountsToLength 2) =
      none := by
  have h1 : IsDouble (2 ^ 1023) := by
    unfold IsDouble
    have h := round64_eq_of_normal (x := 2 ^ 1023) (e := 971) (n := 2 ^ 52) (by norm_num)
      (by norm_num [abs_of_pos]) (by norm_num [abs_of_pos]) (by norm_num [abs_of_pos])
      (by norm_num [DBL_MAX, abs_of_pos])
    rw [h]
    norm_num
  have h2 : (mkWinch (2 ^ 1023) 0 0 0).CountsToLength 2 = none := by
    rw [countsToLength_eq]
    have h := round64_eq_none_of_normal (x := ((2 : Int) : ℚ) * 2 ^ 1023) (e := 972)
      (n := 2 ^ 52) (by norm_num) (by norm_num [abs_of_pos]) (by norm_num [abs_of_pos])
      (by norm_num [abs_of_pos]) (by norm_num [DBL_MAX, abs_of_pos])
    exact h
  refine ⟨h1, by simp [mkWinch], by decide, h2, ?_⟩
  rw [h2]
  rfl

/-- C4 (amended): for every `int` value `counts` and every non-zero binary64 scale factor
for which the product `counts * f` does not overflow (`CountsToLength counts` is finite),
`LengthToCounts (CountsToLength counts)` is defined and differs from `counts` by at
most 1, every operation being rounded to binary64. -/
theorem round_trip_within_one (w : Winch) (counts : Int)
    (hc : inIntRange counts) (hd : IsDouble w.params_.CountsToLengthFactor)
    (hf : w.params_.CountsToLengthFactor ≠ 0)
    (hfin : w.CountsToLength counts ≠ none) :
    ∃ n, w.LengthToCounts (w.CountsToLength counts) = some n ∧ |n - counts| ≤ 1 := by
  obtain ⟨y, hy⟩ := Option.ne_none_iff_exists'.mp hfin
  have hy2 : round64 ((counts : ℚ) * w.params_.CountsToLengthFactor) = some y := by
    rw [← countsToLength_eq]; exact hy
  have hfpos : 0 < |w.params_.CountsToLengthFactor| := abs_pos.mpr hf
  have hcb := abs_intCast_le_of_inIntRange hc
  -- the product is rounded with a relative error of at most 2^-53
  have hgrid : ∃ k : Int, (counts : ℚ) * w.params_.CountsToLengthFactor =
      (k : ℚ) * 2 ^ (-1074 : Int) := by
    obtain ⟨k, hk⟩ := round64_grid hd
    exact ⟨counts * k, by rw [hk]; push_cast; ring⟩
  have e1 := round64_error_of_grid hgrid hy2
  have e2 : |y / w.params_.CountsToLengthFactor - (counts : ℚ)| ≤ |(counts : ℚ)| / 2 ^ 53 := by
    have : y / w.params_.CountsToLengthFactor - (counts : ℚ) =
        (y - (counts : ℚ) * w.params_.CountsToLengthFactor) / w.params_.CountsToLengthFactor := by
      field_simp
      ring
    rw [this, abs_div, div_le_iff₀ hfpos]
    calc |y - (counts : ℚ) * w.params_.CountsToLengthFactor|
        ≤ |(counts : ℚ) * w.params_.CountsToLengthFactor| / 2 ^ 53 := e1
      _ = |(counts : ℚ)| / 2 ^ 53 * |w.params_.CountsToLengthFactor| := by
          rw [abs_mul]; ring
  have e3 : |y / w.params_.CountsToLengthFactor| ≤ 2 ^ 32 := by
    have := abs_sub_abs_le_abs_sub (y / w.params_.CountsToLengthFactor) (counts : ℚ)
    have h53 : |(counts : ℚ)| / 2 ^ 53 ≤ 2 ^ 31 / 2 ^ 53 :=
      div_le_div_of_nonneg_right hcb (by positivity)
    norm_num at h53 ⊢
    linarith
  -- the quotient is finite and rounded with a small error
  obtain ⟨q, hq⟩ := round64_isSome_of_abs_le e3 (by norm_num [DBL_MAX])
  have e4 := round64_error_add hq
  have e5 : |q - (counts : ℚ)| < 1 := by
    have h1 : |q - (counts : ℚ)| ≤ |q - y / w.params_.CountsToLengthFactor| +
        |y / w.params_.CountsToLengthFactor - (counts : ℚ)| := abs_sub_le _ _ _
    have h53 : |(counts : ℚ)| / 2 ^ 53 ≤ 2 ^ 31 / 2 ^ 53 :=
      div_le_div_of_nonneg_right hcb (by positivity)
    have h54 : |y / w.params_.CountsToLengthFactor| / 2 ^ 53 ≤ 2 ^ 32 / 2 ^ 53 :=
      div_le_div_of_nonneg_right e3 (by positivity)
    have h55 : (1 : ℚ) / 2 ^ 1075 ≤ 1 / 2 := by norm_num
    norm_num at h53 h54
    linarith
  have hlo : (INT_MIN : ℚ) - 1 < q := by
    have h1 : (INT_MIN : ℚ) ≤ (counts : ℚ) := by exact_mod_cast hc.1
    have := (abs_lt.mp e5).1
    linarith
  have hhi : q < (INT_MAX : ℚ) + 1 := by
    have h1 : (counts : ℚ) ≤ (INT_MAX : ℚ) := by exact_mod_cast hc.2
    have := (abs_lt.mp e5).2
    linarith
  refine ⟨truncate q, ?_, abs_truncate_sub_le_one e5⟩
  rw [hy, lengthToCounts_some_eq w y hf, hq, toInt_eq_some_of_lt hlo hhi]

theorem round64_eval {x v : ℚ} (e n : Int) (he : -1074 ≤ e)
    (h1 : (2 : ℚ) ^ (e + 52) ≤ |x|) (h2 : |x| < (2 : ℚ) ^ (e + 53))
    (hc : |x / 2 ^ e - (n : ℚ)| < 1 / 2) (hmax : |(n : ℚ) * 2 ^ e| ≤ DBL_MAX)
    (hv : (n : ℚ) * 2 ^ e = v) : round64 x = some v := by
  rw [← hv]
  exact round64_eq_of_normal he h1 h2 hc hmax

theorem isDouble_d0_001 : IsDouble d0_001 := by
  unfold IsDouble d0_001
  exact round64_eval (-62) 4611686018427388 (by norm_num) (by norm_num [abs_of_pos])
    (by norm_num [abs_of_pos]) (by norm_num [abs_of_pos]) (by norm_num [DBL_MAX, abs_of_pos])
    (by norm_num)

/-- C4 (witness): with the `double` literal `0.001` as scale factor, 2001 counts give the
length `2.001`, the quotient `2000.9999999999998` and the count 2000: the round trip is
defined, within 1 of 2001 and not the identity. -/
theorem round_trip_within_one_witness :
    inIntRange 2001 ∧ IsDouble (mkWinch d0_001 0 0 0).params_.CountsToLengthFactor ∧
    (mkWinch d0_001 0 0 0).CountsToLength 2001 = some (4505851427184181 / 2 ^ 51) ∧
    (∃ n, (mkWinch d0_001 0 0 0).LengthToCounts ((mkWinch d0_001 0 0 0).CountsToLength 2001) =
      some n ∧ |n - 2001| ≤ 1) ∧
    (mkWinch d0_001 0 0 0).LengthToCounts ((mkWinch d0_001 0 0 0).CountsToLength 2001) =
      some 2000 := by
  have hf : (mkWinch d0_001 0 0 0).params_.CountsToLengthFactor ≠ 0 := by
    simp [mkWinch, d0_001]
  have hy : (mkWinch d0_001 0 0 0).CountsToLength 2001 = some (4505851427184181 / 2 ^ 51) := by
    rw [countsToLength_eq]
    show round64 (((2001 : Int) : ℚ) * d0_001) = _
    unfold d0_001
    exact round64_eval (-51) 4505851427184181 (by norm_num) (by norm_num [abs_of_pos])
      (by norm_num [abs_of_pos]) (by norm_num [abs_of_pos])
      (by norm_num [DBL_MAX, abs_of_pos]) (by norm_num)
  have hq : round64 ((4505851427184181 / 2 ^ 51 : ℚ) / d0_001) =
      some (8800491068719103 / 2 ^ 42) := by
    unfold d0_001
    exact round64_eval (-42) 8800491068719103 (by norm_num) (by norm_num [abs_of_pos])
      (by norm_num [abs_of_pos]) (by norm_num [abs_of_pos])
      (by norm_num [DBL_MAX, abs_of_pos]) (by norm_num)
  have ht : truncate (8800491068719103 / 2 ^ 42 : ℚ) = 2000 := by
    rw [truncate_eq_iff]
    refine ⟨?_, ?_, ?_, ?_⟩ <;> norm_num [abs_of_pos]
  have h2000 : (mkWinch d0_001 0 0 0).LengthToCounts
      ((mkWinch d0_001 0 0 0).CountsToLength 2001) = some 2000 := by
    rw [hy, lengthToCounts_some_eq _ _ hf]
    show toInt (round64 ((4505851427184181 / 2 ^ 51 : ℚ) / d0_001)) = _
    rw [hq, toInt_some, ht]
    decide
  exact ⟨by decide, isDouble_d0_001, hy,
    round_trip_within_one (mkWinch d0_001 0 0 0) 2001 (by decide) isDouble_d0_001 hf
      (by rw [hy]; exact Option.some_ne_none _),
    h2000⟩

/-! ## Rounding policy of `LengthToCounts` in binary64 -/

theorem fdiv_some_eq (x f : ℚ) (hf : f ≠ 0) : fdiv (some x) f = round64 (x / f) := by
  simp [fdiv, hf]

/-- C7 (as stated, refuted): with the `double` literals `0.25` and `0.001` the exact
quotient of the two binary64 values lies just below 250, so its truncation toward zero is
249, while the division at winch.cpp line 79 rounds the quotient to the `double` 250 and
`LengthToCounts` returns 250; and for length `2147483648` with scale factor 1 the quotient
`2^31` is not an `int`, so the conversion has no defined result and no `int` value is the
truncation of the quotient. -/
theorem lengthToCounts_not_truncation_of_quotient :
    IsDouble (1 / 4) ∧ IsDouble d0_001 ∧ d0_001 ≠ 0 ∧
    (mkWinch d0_001 0 0 0).LengthToCounts (some (1 / 4)) = some 250 ∧
    ¬ IsTruncationOf 250 ((1 / 4) / (mkWinch d0_001 0 0 0).params_.CountsToLengthFactor) ∧
    IsTruncationOf 249 ((1 / 4) / (mkWinch d0_001 0 0 0).params_.CountsToLengthFactor) ∧
    (mkWinch 1 0 0 0).LengthToCounts (some 2147483648) = none ∧
    (∀ n : Int, inIntRange n →
      ¬ IsTruncationOf n (2147483648 / (mkWinch 1 0 0 0).params_.CountsToLengthFactor)) := by
  have hq4 : IsDouble (1 / 4) := by
    unfold IsDouble
    exact round64_eval (-54) 4503599627370496 (by norm_num) (by norm_num [abs_of_pos])
      (by norm_num [abs_of_pos]) (by norm_num [abs_of_pos])
      (by norm_num [DBL_MAX, abs_of_pos]) (by norm_num)
  have hf : (mkWinch d0_001 0 0 0).params_.CountsToLengthFactor ≠ 0 := by
    simp [mkWinch, d0_001]
  have hdiv : round64 ((1 / 4 : ℚ) / d0_001) = some 250 := by
    unfold d0_001
    exact round64_eval (-45) 8796093022208000 (by norm_num) (by norm_num [abs_of_pos])
      (by norm_num [abs_of_pos]) (by norm_num [abs_of_pos])
      (by norm_num [DBL_MAX, abs_of_pos]) (by norm_num)
  have h250 : (mkWinch d0_001 0 0 0).LengthToCounts (some (1 / 4)) = some 250 := by
    rw [lengthToCounts_some_eq _ _ hf]
    show toInt (round64 ((1 / 4 : ℚ) / d0_001)) = _
    rw [hdiv, toInt_some]
    have : truncate (250 : ℚ) = 250 := by exact_mod_cast truncate_intCast 250
    rw [this]
    decide
  have hbig : round64 ((2147483648 : ℚ) / 1) = some 2147483648 :=
    round64_eval (-21) 4503599627370496 (by norm_num) (by norm_num [abs_of_pos])
      (by norm_num [abs_of_pos]) (by norm_num [abs_of_pos])
      (by norm_num [DBL_MAX, abs_of_pos]) (by norm_num)
  have htb : truncate (2147483648 : ℚ) = 2147483648 := by
    exact_mod_cast truncate_intCast 2147483648
  refine ⟨hq4, isDouble_d0_001, by norm_num [d0_001], h250, ?_, ?_, ?_, ?_⟩
  · unfold IsTruncationOf
    simp only [mkWinch, d0_001]
    norm_num [abs_of_pos]
  · unfold IsTruncationOf
    simp only [mkWinch, d0_001]
    norm_num [abs_of_pos]
  · rw [lengthToCounts_some_eq _ _ (by simp [mkWinch])]
    show toInt (round64 ((2147483648 : ℚ) / 1)) = _
    rw [hbig, toInt_some, htb]
    decide
  · intro n hn ht
    have h := eq_truncate_of_isTruncationOf ht
    have hq : (2147483648 : ℚ) / (mkWinch 1 0 0 0).params_.CountsToLengthFactor =
        ((2147483648 : Int) : ℚ) := by
      simp [mkWinch]
    rw [hq, truncate_intCast] at h
    rw [h] at hn
    exact absurd hn (by decide)

/-- C7 (amended): for every length `x` and every non-zero scale factor `f` whose binary64
quotient `q` (the exact quotient `x / f` rounded to the nearest `double`: relative error
at most `2^-53`, or absolute error at most `2^-1075`) is finite and lies strictly between
`INT_MIN - 1` and `INT_MAX + 1`, `LengthToCounts x` is that `double` quotient truncated
toward zero: the unique integer `n` with `|n| ≤ |q| < |n| + 1` whose sign is not opposite
to that of `q`. -/
theorem lengthToCounts_truncates_double_quotient (w : Winch) (x q : ℚ)
    (hf : w.params_.CountsToLengthFactor ≠ 0)
    (hq : fdiv (some x) w.params_.CountsToLengthFactor = some q)
    (hlo : (INT_MIN : ℚ) - 1 < q) (hhi : q < (INT_MAX : ℚ) + 1) :
    (|q - x / w.params_.CountsToLengthFactor| ≤ |x / w.params_.CountsToLengthFactor| / 2 ^ 53 ∨
      |q - x / w.params_.CountsToLengthFactor| ≤ 1 / 2 ^ 1075) ∧
    ∃ n, w.LengthToCounts (some x) = some n ∧ IsTruncationOf n q ∧
      ∀ m : Int, IsTruncationOf m q → m = n := by
  rw [fdiv_some_eq x _ hf] at hq
  refine ⟨round64_error_le hq, truncate q, ?_, truncate_isTruncationOf q,
    fun _ hm => eq_truncate_of_isTruncationOf hm⟩
  rw [lengthToCounts_some_eq w x hf, hq, toInt_eq_some_of_lt hlo hhi]

/-- C7 (witness): with scale factor 0.5, the length -1.25 (quotient -2.5) gives -2 and the
length 1.25 (quotient 2.5) gives 2. -/
theorem lengthToCounts_truncates_double_quotient_witness :
    fdiv (some (-5 / 4)) (mkWinch (1 / 2) 0 0 0).params_.CountsToLengthFactor = some (-5 / 2) ∧
    (mkWinch (1 / 2) 0 0 0).LengthToCounts (some (-5 / 4)) = some (-2) ∧
    fdiv (some (5 / 4)) (mkWinch (1 / 2) 0 0 0).params_.CountsToLengthFactor = some (5 / 2) ∧
    (mkWinch (1 / 2) 0 0 0).LengthToCounts (some (5 / 4)) = some 2 := by
  have hf : (mkWinch (1 / 2) 0 0 0).params_.CountsToLengthFactor ≠ 0 := by simp [mkWinch]
  have q1 : fdiv (some (-5 / 4)) (mkWinch (1 / 2) 0 0 0).params_.CountsToLengthFactor =
      some (-5 / 2) := by
    rw [fdiv_some_eq _ _ hf]
    show round64 ((-5 / 4 : ℚ) / (1 / 2)) = _
    exact round64_eval (-51) (-5629499534213120) (by norm_num) (by norm_num [abs_of_neg])
      (by norm_num [abs_of_neg]) (by norm_num [abs_of_pos])
      (by norm_num [DBL_MAX, abs_of_neg]) (by norm_num)
  have q2 : fdiv (some (5 / 4)) (mkWinch (1 / 2) 0 0 0).params_.CountsToLengthFactor =
      some (5 / 2) := by
    rw [fdiv_some_eq _ _ hf]
    show round64 ((5 / 4 : ℚ) / (1 / 2)) = _
    exact round64_eval (-51) 5629499534213120 (by norm_num) (by norm_num [abs_of_pos])
      (by norm_num [abs_of_pos]) (by norm_num [abs_of_pos])
      (by norm_num [DBL_MAX, abs_of_pos]) (by norm_num)
  obtain ⟨-, n1, h1, -, u1⟩ := lengthToCounts_truncates_double_quotient
    (mkWinch (1 / 2) 0 0 0) (-5 / 4) (-5 / 2) hf q1 (by norm_num [INT_MIN])
    (by norm_num [INT_MAX])
  obtain ⟨-, n2, h2, -, u2⟩ := lengthToCounts_truncates_double_quotient
    (mkWinch (1 / 2) 0 0 0) (5 / 4) (5 / 2) hf q2 (by norm_num [INT_MIN])
    (by norm_num [INT_MAX])
  have e1 : (-2 : Int) = n1 := by
    apply u1
    refine ⟨?_, ?_, ?_, ?_⟩ <;> norm_num [abs_of_neg, abs_of_pos]
  have e2 : (2 : Int) = n2 := by
    apply u2
    refine ⟨?_, ?_, ?_, ?_⟩ <;> norm_num [abs_of_neg, abs_of_pos]
  rw [e1, e2]
  exact ⟨q1, h1, q2, h2⟩

/-! ## Evaluation lemmas for the binary64 operations -/

theorem getStatus64_of_inIntRange (w : Winch)
    (h : inIntRange (w.servo_.drive.position - w.servo_home_pos_)) :
    w.GetStatus = some
      ({ w with cable_ := { w.cable_ with
            length_ := fadd (some w.cable_.home_length_)
              (round64 (((w.servo_.drive.position - w.servo_home_pos_ : Int) : ℚ) *
                w.params_.CountsToLengthFactor)) } },
       { id := w.id_, drive := w.servo_.drive,
         cable_length := fadd (some w.cable_.home_length_)
              (round64 (((w.servo_.drive.position - w.servo_home_pos_ : Int) : ℚ) *
                w.params_.CountsToLengthFactor)),
         motor_position := w.servo_.drive.position }) := by
  simp [Winch.GetStatus, Winch.UpdateConfig, WinchStatus.ofDrive, Servo.GetDriveStatus,
    checkedInt_of_inIntRange h, Cable.UpdateCableLen, Cable.GetLengthNoUpdate,
    countsToLength_eq]

theorem getStatus64_eq_none_of_not_inIntRange (w : Winch)
    (h : ¬ inIntRange (w.servo_.drive.position - w.servo_home_pos_)) :
    w.GetStatus = none := by
  simp [Winch.GetStatus, Winch.UpdateConfig, WinchStatus.ofDrive, Servo.GetDriveStatus,
    checkedInt_of_not_inIntRange h]

theorem lengthToCounts64_eq_some_iff (w : Winch) (a : Double) (n : Int) :
    w.LengthToCounts a = some n ↔
      w.params_.CountsToLengthFactor ≠ 0 ∧
      ∃ x q, a = some x ∧ round64 (x / w.params_.CountsToLengthFactor) = some q ∧
        inIntRange (truncate q) ∧ n = truncate q := by
  unfold Winch.LengthToCounts
  cases a with
  | none => simp [fdiv, toInt]
  | some x =>
    by_cases hf : w.params_.CountsToLengthFactor = 0
    · simp [fdiv, toInt, hf]
    · rw [fdiv_some_eq x _ hf]
      cases hq : round64 (x / w.params_.CountsToLengthFactor) with
      | none => simp [toInt, hq]
      | some q => simp [toInt_some, checkedInt_eq_some_iff, hf, hq]

theorem setServoPosByCableLen64_eq_some_iff (w w1 : Winch) (T : ℚ) :
    w.SetServoPosByCableLen T = some w1 ↔
      w.params_.CountsToLengthFactor ≠ 0 ∧
      ∃ d q, round64 (T - w.cable_.home_length_) = some d ∧
        round64 (d / w.params_.CountsToLengthFactor) = some q ∧
        inIntRange (truncate q) ∧ inIntRange (w.servo_home_pos_ + truncate q) ∧
        w1 = w.SetServoPos (w.servo_home_pos_ + truncate q) := by
  have hsub : fsub (some T) (some w.cable_.GetHomeLength) =
      round64 (T - w.cable_.home_length_) := rfl
  unfold Winch.SetServoPosByCableLen
  rw [hsub]
  constructor
  · intro h
    cases hl : w.LengthToCounts (round64 (T - w.cable_.home_length_)) with
    | none => rw [hl] at h; exact Option.noConfusion h
    | some n =>
      rw [hl] at h
      dsimp only at h
      obtain ⟨hf, d, q, hd, hq, hr, rfl⟩ := (lengthToCounts64_eq_some_iff w _ n).mp hl
      cases hc : checkedInt (w.servo_home_pos_ + truncate q) with
      | none => rw [hc] at h; exact Option.noConfusion h
      | some t =>
        rw [hc] at h
        obtain ⟨hs, rfl⟩ := checkedInt_eq_some_iff.mp hc
        exact ⟨hf, d, q, hd, hq, hr, hs, (Option.some.inj h).symm⟩
  · rintro ⟨hf, d, q, hd, hq, hr, hs, rfl⟩
    have hl : w.LengthToCounts (round64 (T - w.cable_.home_length_)) = some (truncate q) :=
      (lengthToCounts64_eq_some_iff w _ _).mpr ⟨hf, d, q, hd, hq, hr, rfl⟩
    rw [hl]
    dsimp only
    rw [checkedInt_of_inIntRange hs]

/-! ## Totality in binary64 -/

/-- C9 (as stated, refuted): with scale factor 0 the division in `LengthToCounts` gives an
infinity or a NaN, which converts to no `int`, so neither `LengthToCounts 1` nor
`SetServoPosByCableLen 1` is defined; with scale factor `2^-34` the quotient `2^34` of
length 1 exceeds the `int` range; with home position `INT_MIN` and one count downward the
target position leaves the `int` range; and with home position `-2` and a drive at
`INT_MAX` the subtraction in `GetStatus` does. -/
theorem core_operations_not_total_binary64 :
    (mkWinch 0 0 0 0).LengthToCounts (some 1) = none ∧
    (mkWinch 0 0 0 0).SetServoPosByCableLen 1 = none ∧
    (mkWinch (1 / 2 ^ 34) 0 0 0).LengthToCounts (some 1) = none ∧
    (mkWinch 1 0 (-2147483648) 0).SetServoPosByCableLen (-1) = none ∧
    (mkWinch 1 0 (-2) 2147483647).GetStatus = none ∧
    ¬ inIntRange (2 ^ 34) ∧ ¬ inIntRange (-2147483648 + -1) ∧
    ¬ inIntRange (2147483647 - -2) := by
  refine ⟨?_, ?_, ?_, ?_, ?_, by decide, by decide, by decide⟩
  · simp [Winch.LengthToCounts, fdiv, toInt, mkWinch]
  · cases h : (mkWinch 0 0 0 0).SetServoPosByCableLen 1 with
    | none => rfl
    | some w1 =>
      obtain ⟨hf, -⟩ := (setServoPosByCableLen64_eq_some_iff _ _ _).mp h
      exact absurd rfl hf
  · cases h : (mkWinch (1 / 2 ^ 34) 0 0 0).LengthToCounts (some 1) with
    | none => rfl
    | some n =>
      obtain ⟨-, x, q, hx, hq, hr, -⟩ := (lengthToCounts64_eq_some_iff _ _ _).mp h
      have hx1 : x = 1 := (Option.some.inj hx).symm
      subst hx1
      have he : round64 ((1 : ℚ) / (mkWinch (1 / 2 ^ 34) 0 0 0).params_.CountsToLengthFactor) =
          some (((2 ^ 34 : Int) : ℚ)) := by
        show round64 ((1 : ℚ) / (1 / 2 ^ 34)) = _
        exact round64_eval (-18) 4503599627370496 (by norm_num) (by norm_num [abs_of_pos])
          (by norm_num [abs_of_pos]) (by norm_num [abs_of_pos])
          (by norm_num [DBL_MAX, abs_of_pos]) (by norm_num)
      rw [he] at hq
      have hq2 : q = ((2 ^ 34 : Int) : ℚ) := (Option.some.inj hq).symm
      rw [hq2, truncate_intCast] at hr
      exact absurd hr (by decide)
  · cases h : (mkWinch 1 0 (-2147483648) 0).SetServoPosByCableLen (-1) with
    | none => rfl
    | some w1 =>
      obtain ⟨-, d, q, hd, hq, -, hs, -⟩ := (setServoPosByCableLen64_eq_some_iff _ _ _).mp h
      have e1 : round64 ((-1 : ℚ) - (mkWinch 1 0 (-2147483648) 0).cable_.home_length_) =
          some (-1) := by
        show round64 ((-1 : ℚ) - 0) = _
        exact round64_eval (-52) (-4503599627370496) (by norm_num) (by norm_num [abs_of_neg])
          (by norm_num [abs_of_neg]) (by norm_num [abs_of_pos])
          (by norm_num [DBL_MAX, abs_of_neg]) (by norm_num)
      rw [e1] at hd
      have hd2 : d = -1 := (Option.some.inj hd).symm
      subst hd2
      have e2 : round64 ((-1 : ℚ) / (mkWinch 1 0 (-2147483648) 0).params_.CountsToLengthFactor) =
          some (((-1 : Int) : ℚ)) := by
        show round64 ((-1 : ℚ) / 1) = _
        exact round64_eval (-52) (-4503599627370496) (by norm_num) (by norm_num [abs_of_neg])
          (by norm_num [abs_of_neg]) (by norm_num [abs_of_pos])
          (by norm_num [DBL_MAX, abs_of_neg]) (by norm_num)
      rw [e2] at hq
      have hq2 : q = ((-1 : Int) : ℚ) := (Option.some.inj hq).symm
      rw [hq2, truncate_intCast] at hs
      exact absurd hs (by simp [mkWinch, inIntRange, INT_MIN, INT_MAX])
  · apply getStatus64_eq_none_of_not_inIntRange
    simp [mkWinch, inIntRange, INT_MIN, INT_MAX]

/-- C9 (amended): the operations complete with a well-defined result under range
conditions on their inputs: `UpdateHomeConfig` always, and a `GetStatus` right after it
always completes; `CountsToLength counts` always returns a `double`, a finite one whenever
`|counts * f| ≤ 2^1023`; `GetStatus` whenever `p - p0` is representable as `int` (the
reported length is a `double`, possibly an infinity); `LengthToCounts x` whenever the scale
factor `f` is non-zero and `|x / f| ≤ 2^31 - 1`; `SetServoPosByCableLen T` whenever `T` and
the home length `H` are finite `double`s, `f` is non-zero, `|T - H| ≤ 2^1023`,
`|(T - H) / f| ≤ 2^31 - 2` and `INT_MIN + 2 ≤ p0 + (T - H) / f ≤ INT_MAX - 2`: rounding
cannot push such quotients and positions out of the `int` range. -/
theorem core_operations_defined_in_range (w : Winch) (x T L : ℚ) (counts : Int) :
    (∃ w1 st, (w.UpdateHomeConfig L).GetStatus = some (w1, st)) ∧
    (|(counts : ℚ) * w.params_.CountsToLengthFactor| ≤ 2 ^ 1023 →
      ∃ y, w.CountsToLength counts = some y) ∧
    (inIntRange (w.servo_.GetPosition - w.servo_home_pos_) →
      ∃ w1 st, w.GetStatus = some (w1, st)) ∧
    (w.params_.CountsToLengthFactor ≠ 0 →
      |x / w.params_.CountsToLengthFactor| ≤ 2 ^ 31 - 1 →
      ∃ n, w.LengthToCounts (some x) = some n) ∧
    (IsDouble T → IsDouble w.cable_.home_length_ →
      w.params_.CountsToLengthFactor ≠ 0 →
      |T - w.cable_.home_length_| ≤ 2 ^ 1023 →
      |(T - w.cable_.home_length_) / w.params_.CountsToLengthFactor| ≤ 2 ^ 31 - 2 →
      (INT_MIN : ℚ) + 2 ≤ (w.servo_home_pos_ : ℚ) +
        (T - w.cable_.home_length_) / w.params_.CountsToLengthFactor →
      (w.servo_home_pos_ : ℚ) +
        (T - w.cable_.home_length_) / w.params_.CountsToLengthFactor ≤ (INT_MAX : ℚ) - 2 →
      ∃ w1, w.SetServoPosByCableLen T = some w1) := by
  have hη : (1 : ℚ) / 2 ^ 1075 ≤ 1 / 2 ^ 22 := by norm_num
  refine ⟨⟨_, _, getStatus64_of_inIntRange (w.UpdateHomeConfig L) ?_⟩, ?_,
    fun h => ⟨_, _, getStatus64_of_inIntRange w h⟩, ?_, ?_⟩
  · show inIntRange (w.servo_.drive.position - w.servo_.drive.position)
    rw [sub_self]
    decide
  · intro hb
    rw [countsToLength_eq]
    exact round64_isSome_of_abs_le hb (by norm_num [DBL_MAX])
  · intro hf hx
    have hx2 : |x / w.params_.CountsToLengthFactor| ≤ 2 ^ 31 := by linarith
    obtain ⟨q, hq⟩ := round64_isSome_of_abs_le hx2 (by norm_num [DBL_MAX])
    have e1 := round64_error_add hq
    have e2 : |x / w.params_.CountsToLengthFactor| / 2 ^ 53 ≤ 2 ^ 31 / 2 ^ 53 :=
      div_le_div_of_nonneg_right hx2 (by positivity)
    have e3 := abs_le.mp (le_trans e1 (add_le_add e2 hη))
    have e4 := abs_le.mp hx
    refine ⟨truncate q, ?_⟩
    rw [lengthToCounts_some_eq w x hf, hq]
    apply toInt_eq_some_of_lt
    · norm_num [INT_MIN] at e3 e4 ⊢; linarith
    · norm_num [INT_MAX] at e3 e4 ⊢; linarith
  · intro hT hH hf ha hq0 hlo hhi
    have hfpos : 0 < |w.params_.CountsToLengthFactor| := abs_pos.mpr hf
    -- the difference is finite, rounded with relative error 2^-53
    obtain ⟨d, hd⟩ := round64_isSome_of_abs_le ha (by norm_num [DBL_MAX])
    have hgrid : ∃ k : Int, T - w.cable_.home_length_ = (k : ℚ) * 2 ^ (-1074 : Int) := by
      obtain ⟨k1, hk1⟩ := round64_grid hT
      obtain ⟨k2, hk2⟩ := round64_grid hH
      exact ⟨k1 - k2, by rw [hk1, hk2]; push_cast; ring⟩
    have e1 := round64_error_of_grid hgrid hd
    have e2 : |d / w.params_.CountsToLengthFactor -
        (T - w.cable_.home_length_) / w.params_.CountsToLengthFactor| ≤
        |(T - w.cable_.home_length_) / w.params_.CountsToLengthFactor| / 2 ^ 53 := by
      rw [← sub_div, abs_div, abs_div, div_div, mul_comm, ← div_div]
      exact div_le_div_of_nonneg_right e1 hfpos.le
    have e3 : |(T - w.cable_.home_length_) / w.params_.CountsToLengthFactor| / 2 ^ 53 ≤
        (2 ^ 31 - 2) / 2 ^ 53 := div_le_div_of_nonneg_right hq0 (by positivity)
    have e4 : |d / w.params_.CountsToLengthFactor| ≤ 2 ^ 31 := by
      have := abs_sub_abs_le_abs_sub (d / w.params_.CountsToLengthFactor)
        ((T - w.cable_.home_length_) / w.params_.CountsToLengthFactor)
      norm_num at e3 hq0 ⊢
      linarith
    obtain ⟨q, hq⟩ := round64_isSome_of_abs_le e4 (by norm_num [DBL_MAX])
    have e5 := round64_error_add hq
    have e6 : |d / w.params_.CountsToLengthFactor| / 2 ^ 53 ≤ 2 ^ 31 / 2 ^ 53 :=
      div_le_div_of_nonneg_right e4 (by positivity)
    -- the rounded quotient is within 1/2 of the exact quotient
    have e7 : |q - (T - w.cable_.home_length_) / w.params_.CountsToLengthFactor| ≤ 1 / 2 := by
      have := abs_sub_le q (d / w.params_.CountsToLengthFactor)
        ((T - w.cable_.home_length_) / w.params_.CountsToLengthFactor)
      norm_num at e3 e6 hη ⊢
      linarith
    have e8 := abs_le.mp e7
    have e9 := abs_le.mp hq0
    have e10 := abs_lt.mp (abs_sub_truncate_lt_one q)
    have hr : inIntRange (truncate q) := by
      apply (truncate_inIntRange_iff q).mpr
      constructor
      · norm_num [INT_MIN] at e8 e9 ⊢; linarith
      · norm_num [INT_MAX] at e8 e9 ⊢; linarith
    have hs : inIntRange (w.servo_home_pos_ + truncate q) := by
      have h1 : (INT_MIN : ℚ) < ((w.servo_home_pos_ + truncate q : Int) : ℚ) := by
        push_cast; linarith
      have h2 : ((w.servo_home_pos_ + truncate q : Int) : ℚ) < (INT_MAX : ℚ) := by
        push_cast; linarith
      have h3 : INT_MIN < w.servo_home_pos_ + truncate q := by exact_mod_cast h1
      have h4 : w.servo_home_pos_ + truncate q < INT_MAX := by exact_mod_cast h2
      exact ⟨h3.le, h4.le⟩
    exact ⟨_, (setServoPosByCableLen64_eq_some_iff w _ T).mpr ⟨hf, d, q, hd, hq, hr, hs, rfl⟩⟩

theorem isDouble_half : IsDouble (1 / 2) := by
  unfold IsDouble
  exact round64_eval (-53) 4503599627370496 (by norm_num) (by norm_num [abs_of_pos])
      (by norm_num [abs_of_pos]) (by norm_num [abs_of_pos])
      (by norm_num [DBL_MAX, abs_of_pos]) (by norm_num)

theorem isDouble_three_quarters : IsDouble (3 / 4) := by
  unfold IsDouble
  exact round64_eval (-53) 6755399441055744 (by norm_num) (by norm_num [abs_of_pos])
      (by norm_num [abs_of_pos]) (by norm_num [abs_of_pos])
      (by norm_num [DBL_MAX, abs_of_pos]) (by norm_num)

/-- C9 (witness): a winch with the `double` literal `0.001` as scale factor, calibrated at
`(0.500, 10000)`, whose drive reports 10500: the status read, the conversion of the length
0.25 and the command for the target length 0.75 all complete. -/
theorem core_operations_defined_in_range_witness :
    (∃ w1 st, ((mkWinch d0_001 (1 / 2) 10000 10500).UpdateHomeConfig (4 / 5)).GetStatus =
      some (w1, st)) ∧
    (∃ y, (mkWinch d0_001 (1 / 2) 10000 10500).CountsToLength 500 = some y) ∧
    (∃ w1 st, (mkWinch d0_001 (1 / 2) 10000 10500).GetStatus = some (w1, st)) ∧
    (∃ n, (mkWinch d0_001 (1 / 2) 10000 10500).LengthToCounts (some (1 / 4)) = some n) ∧
    (∃ w1, (mkWinch d0_001 (1 / 2) 10000 10500).SetServoPosByCableLen (3 / 4) = some w1) := by
  have h := core_operations_defined_in_range (mkWinch d0_001 (1 / 2) 10000 10500) (1 / 4) (3 / 4)
    (4 / 5) 500
  have hf : (mkWinch d0_001 (1 / 2) 10000 10500).params_.CountsToLengthFactor ≠ 0 := by
    simp [mkWinch, d0_001]
  refine ⟨h.1, h.2.1 ?_, h.2.2.1 ?_, h.2.2.2.1 hf ?_,
    h.2.2.2.2 isDouble_three_quarters isDouble_half hf ?_ ?_ ?_ ?_⟩
  · simp only [mkWinch, d0_001]; norm_num [abs_of_pos]
  · simp [mkWinch, Servo.GetPosition, inIntRange, INT_MIN, INT_MAX]
  · simp only [mkWinch, d0_001]; norm_num [abs_of_pos]
  · simp only [mkWinch]; norm_num [abs_of_pos]
  · simp only [mkWinch, d0_001]; norm_num [abs_of_pos]
  · simp only [mkWinch, d0_001]; norm_num [INT_MIN]
  · simp only [mkWinch, d0_001]; norm_num [INT_MAX]

/-! ## Consistency of the length command with the status read-out in binary64 -/

end Binary64

end CableRobot
